import Mathlib

/-!
Verification of the chunk-aware document processing pipeline.

Documents are modelled as `List Char` (JavaScript strings at character
granularity; `String.prototype.length` counts code units, which coincide with
characters for the texts considered here).  Fallible operations are modelled
with `Except`.  External model-engine calls are modelled as explicit oracle
parameters, so "no engine call happens" is expressed as independence of the
result from the oracle.
-/

set_option maxRecDepth 8000

namespace Agreezy

/-- Whitespace class of JS `String.prototype.trim` (ASCII whitespace plus
no-break space and BOM; the classes relevant to the modelled documents). -/
def isJsWhitespace (c : Char) : Bool :=
  c = ' ' || c = '\t' || c = '\n' || c = '\r' || c = '\x0b' || c = '\x0c' ||
  c = '\u00A0' || c = '\uFEFF'

/-- Embedding of JS `s.trim()`: strip leading and trailing whitespace. -/
def jsTrim (s : List Char) : List Char :=
  ((s.dropWhile isJsWhitespace).reverse.dropWhile isJsWhitespace).reverse

/-- Source constant `MAX_CHUNK_SIZE` from `chunker.js`. -/
def MAX_CHUNK_SIZE : Nat := 3500

/-- Source constant `CHUNK_OVERLAP` from `chunker.js`. -/
def CHUNK_OVERLAP : Nat := 200

/-- Source constant `MAX_DOCUMENT_SIZE` from `chunker.js`. -/
def MAX_DOCUMENT_SIZE : Nat := 50000

/-- Greedy continuation `\n+` of both separator alternatives. -/
def dropNewlines (l : List Char) : List Char := l.dropWhile (fun c => c = '\n')

/-- One left-to-right scan of JS `text.split(/\n\n+|\r\n\r\n+/)`: at each
position try the alternative `\n\n+` first, then `\r\n\r\n+` (both greedy),
otherwise advance one character.  The `Nat` argument is fuel; the wrapper
`splitRaw` supplies `l.length`, which bounds the number of scan steps since
every step consumes at least one character. -/
def splitRawAux : Nat → List Char → List Char → List (List Char)
  | _, [], acc => [acc.reverse]
  | 0, l, acc => [acc.reverse ++ l]
  | Nat.succ n, c :: rest, acc =>
    if c = '\n' then
      match rest with
      | '\n' :: rest2 => acc.reverse :: splitRawAux n (dropNewlines rest2) []
      | _ => splitRawAux n rest (c :: acc)
    else if c = '\r' then
      match rest with
      | '\n' :: '\r' :: '\n' :: rest2 => acc.reverse :: splitRawAux n (dropNewlines rest2) []
      | _ => splitRawAux n rest (c :: acc)
    else splitRawAux n rest (c :: acc)

/-- JS `text.split(/\n\n+|\r\n\r\n+/)`. -/
def splitRaw (l : List Char) : List (List Char) := splitRawAux l.length l []

/-- Embedding of `splitIntoParagraphs` from `chunker.js`:
split on blank-line separators, trim each piece, drop empty pieces. -/
def splitIntoParagraphs (text : List Char) : List (List Char) :=
  ((splitRaw text).map jsTrim).filter (fun p => 0 < p.length)

/-- The chunk record produced by `chunkContent`.  The JS field `end` is a Lean
keyword and is rendered `endPos`.  Offsets are integers because the source
computes them with plain JS arithmetic, which can go negative. -/
structure Chunk where
  text : List Char
  index : Nat
  total : Nat
  start : Int
  endPos : Int
deriving DecidableEq

/-- JS `s.slice(-n)` for positive `n`: the trailing `min n (length s)`
characters. -/
def sliceLast (n : Nat) (l : List Char) : List Char := l.drop (l.length - n)

/-- The `'\n\n'` separator used when accumulating paragraphs into a chunk. -/
def paragraphSeparator : List Char := ['\n', '\n']

/-- State of the paragraph-accumulation loop in `chunkContent`:
the chunks pushed so far, the running chunk text, and `chunkStartIndex`. -/
structure ChunkState where
  chunks : List Chunk
  current : List Char
  startIdx : Int

/-- The `potentialChunk` computed at the top of each loop iteration of
`chunkContent` (JS `currentChunk ? currentChunk + '\n\n' + para : para`;
the empty string is falsy). -/
def potentialChunkOf (st : ChunkState) (para : List Char) : List Char :=
  if st.current.isEmpty then para else st.current ++ paragraphSeparator ++ para

/-- One iteration of the `for` loop of `chunkContent` over a paragraph. -/
def stepPara (st : ChunkState) (para : List Char) : ChunkState :=
  if MAX_CHUNK_SIZE < (potentialChunkOf st para).length ∧ 0 < st.current.length then
    let closed : Chunk :=
      { text := st.current, index := st.chunks.length, total := 0,
        start := st.startIdx, endPos := st.startIdx + st.current.length }
    { chunks := st.chunks ++ [closed],
      current := sliceLast CHUNK_OVERLAP st.current ++ paragraphSeparator ++ para,
      startIdx := st.startIdx + st.current.length - CHUNK_OVERLAP }
  else
    { st with current := potentialChunkOf st para }

/-- The trailing "add final chunk if any content remains" step of
`chunkContent`. -/
def closeFinal (st : ChunkState) : List Chunk :=
  if 0 < st.current.length then
    let finalChunk : Chunk :=
      { text := st.current, index := st.chunks.length, total := 0,
        start := st.startIdx, endPos := st.startIdx + st.current.length }
    st.chunks ++ [finalChunk]
  else st.chunks

/-- Error thrown by `chunkContent` (carries the measured trimmed length and
the configured limit, as interpolated into the JS error message). -/
inductive ChunkError where
  | contentTooLarge (measured limit : Nat)
deriving DecidableEq

/-- The message string of the thrown JS `Error`. -/
def ChunkError.message : ChunkError → String
  | .contentTooLarge m l =>
      "Document too long (" ++ toString m ++ " chars). Maximum supported: " ++
        toString l ++ " chars."

/-- Embedding of `chunkContent` from `chunker.js`. -/
def chunkContent (content : List Char) : Except ChunkError (List Chunk) :=
  if content.isEmpty ∨ (jsTrim content).length = 0 then .ok []
  else
    let trimmedContent := jsTrim content
    if MAX_DOCUMENT_SIZE < trimmedContent.length then
      .error (.contentTooLarge trimmedContent.length MAX_DOCUMENT_SIZE)
    else if trimmedContent.length ≤ MAX_CHUNK_SIZE then
      .ok [{ text := trimmedContent, index := 0, total := 1, start := 0,
             endPos := trimmedContent.length }]
    else
      let paragraphs := splitIntoParagraphs trimmedContent
      let st := paragraphs.foldl stepPara { chunks := [], current := [], startIdx := 0 }
      let finalChunks := closeFinal st
      .ok (finalChunks.map (fun c => { c with total := finalChunks.length }))

/-- Error cases of `validateContentLength` (carrying the data interpolated
into the JS error strings). -/
inductive ValidationError where
  | noContent
  | contentTooLong (measured limit : Nat)
deriving DecidableEq

/-- The JS error strings of `validateContentLength`. -/
def ValidationError.message : ValidationError → String
  | .noContent => "No content to process"
  | .contentTooLong m l =>
      "Content too long (" ++ toString m ++ " chars). Maximum: " ++
        toString l ++ " chars."

/-- Result object of `validateContentLength`; absent JS fields are `none`. -/
structure ValidationResult where
  valid : Bool
  error : Option ValidationError := none
  length : Option Nat := none
deriving DecidableEq

/-- Embedding of `validateContentLength` from `chunker.js`. -/
def validateContentLength (content : List Char) : ValidationResult :=
  if content.isEmpty ∨ (jsTrim content).length = 0 then
    { valid := false, error := some .noContent }
  else
    let length := (jsTrim content).length
    if MAX_DOCUMENT_SIZE < length then
      { valid := false, error := some (.contentTooLong length MAX_DOCUMENT_SIZE),
        length := some length }
    else
      { valid := true, length := some length }

/-! Basic facts about `jsTrim`. -/

theorem jsTrim_nil : jsTrim [] = [] := rfl

theorem isEmpty_eq_false_of_jsTrim_length_pos {content : List Char}
    (h : 0 < (jsTrim content).length) : content.isEmpty = false := by
  cases content with
  | nil => simp [jsTrim] at h
  | cons c l => rfl

theorem dropWhile_replicate_of_neg {p : Char → Bool} {c : Char} (h : p c = false)
    (n : Nat) : List.dropWhile p (List.replicate n c) = List.replicate n c := by
  cases n with
  | zero => rfl
  | succ n => rw [List.replicate_succ, List.dropWhile_cons, h]; simp

theorem jsTrim_replicate {c : Char} (h : isJsWhitespace c = false) (n : Nat) :
    jsTrim (List.replicate n c) = List.replicate n c := by
  unfold jsTrim
  rw [dropWhile_replicate_of_neg h, List.reverse_replicate,
    dropWhile_replicate_of_neg h, List.reverse_replicate]

/-! Facts used to evaluate the Chunker symbolically on concrete two-paragraph
documents (kernel evaluation over multi-thousand-character lists is avoided on
purpose; everything is proved through `List.replicate` lemmas). -/

theorem nonWhitespace_ne_newline {c : Char} (h : isJsWhitespace c = false) :
    ¬ c = '\n' := by
  intro heq
  subst heq
  simp [isJsWhitespace] at h

theorem nonWhitespace_ne_cr {c : Char} (h : isJsWhitespace c = false) :
    ¬ c = '\r' := by
  intro heq
  subst heq
  simp [isJsWhitespace] at h

theorem jsTrim_eq_self {l : List Char}
    (h1 : l.dropWhile isJsWhitespace = l)
    (h2 : l.reverse.dropWhile isJsWhitespace = l.reverse) : jsTrim l = l := by
  unfold jsTrim
  rw [h1, h2, List.reverse_reverse]

theorem jsTrim_two_replicate {a b : Char} (ha : isJsWhitespace a = false)
    (hb : isJsWhitespace b = false) (na nb : Nat) :
    jsTrim (List.replicate (na+1) a ++ ['\n', '\n'] ++ List.replicate (nb+1) b) =
      List.replicate (na+1) a ++ ['\n', '\n'] ++ List.replicate (nb+1) b := by
  apply jsTrim_eq_self
  · rw [List.replicate_succ, List.cons_append, List.cons_append, List.dropWhile_cons]
    simp [ha]
  · simp only [List.reverse_append, List.reverse_replicate, List.reverse_cons,
      List.reverse_nil, List.nil_append, List.append_assoc]
    rw [List.replicate_succ, List.cons_append, List.dropWhile_cons]
    simp [hb]

theorem splitRawAux_replicate_skip {c : Char} (hn : ¬ c = '\n') (hr : ¬ c = '\r') :
    ∀ (n fuel : Nat) (rest acc : List Char),
      splitRawAux (n + fuel) (List.replicate n c ++ rest) acc =
        splitRawAux fuel rest ((List.replicate n c).reverse ++ acc) := by
  intro n
  induction n with
  | zero => intro fuel rest acc; simp
  | succ n ih =>
    intro fuel rest acc
    have hstep : n + 1 + fuel = (n + fuel) + 1 := by omega
    rw [hstep, List.replicate_succ, List.cons_append]
    simp only [splitRawAux, if_neg hn, if_neg hr]
    rw [ih]
    simp [List.replicate_succ', List.append_assoc]

theorem splitRawAux_replicate_only {c : Char} (hn : ¬ c = '\n') (hr : ¬ c = '\r')
    (n : Nat) (acc : List Char) :
    splitRawAux (n + 1) (List.replicate n c) acc = [acc.reverse ++ List.replicate n c] := by
  have h := splitRawAux_replicate_skip hn hr n 1 [] acc
  rw [List.append_nil] at h
  rw [h]
  simp [splitRawAux, List.reverse_append]

theorem splitRaw_two_replicate {a b : Char} (ha1 : ¬ a = '\n') (ha2 : ¬ a = '\r')
    (hb1 : ¬ b = '\n') (hb2 : ¬ b = '\r') (na nb : Nat) :
    splitRaw (List.replicate na a ++ ['\n', '\n'] ++ List.replicate nb b) =
      [List.replicate na a, List.replicate nb b] := by
  unfold splitRaw
  have hlen : (List.replicate na a ++ ['\n', '\n'] ++ List.replicate nb b).length
      = na + ((nb + 1) + 1) := by
    simp [List.length_append, List.length_replicate]
  rw [hlen, List.append_assoc, splitRawAux_replicate_skip ha1 ha2]
  rw [List.cons_append, List.cons_append, List.nil_append]
  simp only [splitRawAux, if_true]
  have hdrop : dropNewlines (List.replicate nb b) = List.replicate nb b := by
    unfold dropNewlines
    exact dropWhile_replicate_of_neg (by simp [hb1]) nb
  rw [hdrop, splitRawAux_replicate_only hb1 hb2]
  simp

theorem splitIntoParagraphs_two_replicate {a b : Char} (ha : isJsWhitespace a = false)
    (hb : isJsWhitespace b = false) (na nb : Nat) :
    splitIntoParagraphs (List.replicate (na+1) a ++ ['\n', '\n'] ++ List.replicate (nb+1) b) =
      [List.replicate (na+1) a, List.replicate (nb+1) b] := by
  unfold splitIntoParagraphs
  rw [splitRaw_two_replicate (nonWhitespace_ne_newline ha) (nonWhitespace_ne_cr ha)
    (nonWhitespace_ne_newline hb) (nonWhitespace_ne_cr hb)]
  rw [List.map_cons, List.map_cons, List.map_nil,
    jsTrim_replicate ha, jsTrim_replicate hb]
  simp [List.length_replicate]

theorem stepPara_emptyCurrent (p : List Char) (chunks : List Chunk) (s : Int) :
    stepPara { chunks := chunks, current := [], startIdx := s } p =
      { chunks := chunks, current := p, startIdx := s } := by
  simp [stepPara, potentialChunkOf]

theorem stepPara_split (st : ChunkState) (p : List Char)
    (hcur : 0 < st.current.length)
    (hlen : MAX_CHUNK_SIZE < st.current.length + 2 + p.length) :
    stepPara st p =
      { chunks := st.chunks ++ [{ text := st.current, index := st.chunks.length, total := 0,
                                  start := st.startIdx, endPos := st.startIdx + st.current.length }],
        current := sliceLast CHUNK_OVERLAP st.current ++ paragraphSeparator ++ p,
        startIdx := st.startIdx + st.current.length - CHUNK_OVERLAP } := by
  have hne : st.current.isEmpty = false := by
    rw [List.isEmpty_eq_false]
    exact List.ne_nil_of_length_pos hcur
  have hplen : (potentialChunkOf st p).length = st.current.length + 2 + p.length := by
    unfold potentialChunkOf
    rw [hne]
    simp [List.length_append, paragraphSeparator]
    omega
  unfold stepPara
  rw [if_pos ⟨by rw [hplen]; exact hlen, hcur⟩]

theorem closeFinal_pos (st : ChunkState) (h : 0 < st.current.length) :
    closeFinal st = st.chunks ++ [{ text := st.current, index := st.chunks.length, total := 0,
                                    start := st.startIdx, endPos := st.startIdx + st.current.length }] := by
  simp [closeFinal, h]

theorem chunkContent_two_replicate_succ {a b : Char} (ha : isJsWhitespace a = false)
    (hb : isJsWhitespace b = false) (na nb : Nat)
    (hbig : MAX_CHUNK_SIZE < na + 1 + 2 + (nb + 1))
    (hsmall : na + 1 + 2 + (nb + 1) ≤ MAX_DOCUMENT_SIZE) :
    chunkContent (List.replicate (na+1) a ++ ['\n', '\n'] ++ List.replicate (nb+1) b) =
      Except.ok
        [{ text := List.replicate (na+1) a, index := 0, total := 2, start := 0,
           endPos := ((na+1 : Nat) : Int) },
         { text := List.replicate ((na+1) - (na+1-200)) a ++ ['\n', '\n'] ++ List.replicate (nb+1) b,
           index := 1, total := 2, start := ((na+1 : Nat) : Int) - 200,
           endPos := ((na+1 : Nat) : Int) - 200 + ((((na+1) - (na+1-200)) + 2 + (nb+1) : Nat) : Int) }] := by
  have htrim : jsTrim (List.replicate (na+1) a ++ ['\n', '\n'] ++ List.replicate (nb+1) b)
      = List.replicate (na+1) a ++ ['\n', '\n'] ++ List.replicate (nb+1) b :=
    jsTrim_two_replicate ha hb na nb
  have hlenL : (List.replicate (na+1) a ++ ['\n', '\n'] ++ List.replicate (nb+1) b).length
      = na + 1 + 2 + (nb + 1) := by
    simp [List.length_append, List.length_replicate]
    omega
  have hA0 : (0:Nat) < (List.replicate (na+1) a).length := by
    simp [List.length_replicate]
  simp only [chunkContent, htrim, hlenL]
  have hne : (List.replicate (na+1) a ++ ['\n', '\n'] ++ List.replicate (nb+1) b) ≠ [] := by
    apply List.ne_nil_of_length_pos
    rw [hlenL]
    omega
  have h0 : ¬((List.replicate (na+1) a ++ ['\n', '\n'] ++ List.replicate (nb+1) b).isEmpty = true
      ∨ na + 1 + 2 + (nb + 1) = 0) := by
    rw [List.isEmpty_iff]
    push_neg
    exact ⟨hne, by omega⟩
  have h1 : ¬(MAX_DOCUMENT_SIZE < na + 1 + 2 + (nb + 1)) := by omega
  have h2 : ¬(na + 1 + 2 + (nb + 1) ≤ MAX_CHUNK_SIZE) := by omega
  rw [if_neg h0, if_neg h1, if_neg h2, splitIntoParagraphs_two_replicate ha hb]
  rw [List.foldl_cons, List.foldl_cons, List.foldl_nil]
  rw [stepPara_emptyCurrent]
  rw [stepPara_split _ _ (by simp)
    (by simp only [List.length_replicate]; omega)]
  rw [closeFinal_pos]
  · simp only [List.nil_append, List.map_cons, List.map_nil, List.length_append,
      List.length_cons, List.length_nil]
    refine congrArg Except.ok ?_
    simp only [sliceLast, List.length_replicate, List.drop_replicate, paragraphSeparator,
      List.length_append, List.length_drop, List.cons_append, List.nil_append,
      List.map_cons, List.map_nil, CHUNK_OVERLAP, List.length_cons, List.length_nil,
      Chunk.mk.injEq, List.cons.injEq, and_true, true_and]
    omega
  · simp [sliceLast, List.length_append, paragraphSeparator]

theorem chunkContent_two_replicate {a b : Char} (ha : isJsWhitespace a = false)
    (hb : isJsWhitespace b = false) (na nb : Nat) (hna : 0 < na) (hnb : 0 < nb)
    (hbig : MAX_CHUNK_SIZE < na + 2 + nb)
    (hsmall : na + 2 + nb ≤ MAX_DOCUMENT_SIZE) :
    chunkContent (List.replicate na a ++ ['\n', '\n'] ++ List.replicate nb b) =
      Except.ok
        [{ text := List.replicate na a, index := 0, total := 2, start := 0,
           endPos := (na : Int) },
         { text := List.replicate (na - (na-200)) a ++ ['\n', '\n'] ++ List.replicate nb b,
           index := 1, total := 2, start := (na : Int) - 200,
           endPos := (na : Int) - 200 + (((na - (na-200)) + 2 + nb : Nat) : Int) }] := by
  obtain ⟨ma, rfl⟩ : ∃ m, na = m + 1 := ⟨na - 1, by omega⟩
  obtain ⟨mb, rfl⟩ : ∃ m, nb = m + 1 := ⟨nb - 1, by omega⟩
  exact chunkContent_two_replicate_succ ha hb ma mb (by omega) (by omega)

/-- Two paragraphs of 3400 characters each: forces a split into two chunks. -/
def doc3 : List Char := List.replicate 3400 'b' ++ ['\n', '\n'] ++ List.replicate 3400 'c'

/-- The chunks `chunkContent` produces for `doc3`. -/
def doc3Chunks : List Chunk :=
  [{ text := List.replicate 3400 'b', index := 0, total := 2, start := 0, endPos := 3400 },
   { text := List.replicate 200 'b' ++ ['\n', '\n'] ++ List.replicate 3400 'c',
     index := 1, total := 2, start := 3200, endPos := 6802 }]

theorem chunkContent_doc3 : chunkContent doc3 = Except.ok doc3Chunks := by
  have h := @chunkContent_two_replicate 'b' 'c' (by decide) (by decide) 3400 3400
    (by decide) (by decide) (by decide) (by decide)
  rw [show ((3400:Nat) - (3400 - 200)) = 200 from by norm_num] at h
  rw [show (((3400:Nat)) : Int) = 3400 from by norm_num] at h
  rw [show ((200:Nat) + 2 + 3400) = 3602 from by norm_num] at h
  rw [show (((3602:Nat)) : Int) = 3602 from by norm_num] at h
  rw [show ((3400:Int) - 200) = 3200 from by norm_num] at h
  rw [show ((3200:Int) + 3602) = 6802 from by norm_num] at h
  exact h

/-- A one-character paragraph followed by a 3500-character paragraph: the
second chunk is seeded with the whole first chunk as overlap, driving
`chunkStartIndex` negative. -/
def doc4 : List Char := List.replicate 1 'a' ++ ['\n', '\n'] ++ List.replicate 3500 'b'

/-- The chunks `chunkContent` produces for `doc4`. -/
def doc4Chunks : List Chunk :=
  [{ text := List.replicate 1 'a', index := 0, total := 2, start := 0, endPos := 1 },
   { text := List.replicate 1 'a' ++ ['\n', '\n'] ++ List.replicate 3500 'b',
     index := 1, total := 2, start := -199, endPos := 3304 }]

theorem chunkContent_doc4 : chunkContent doc4 = Except.ok doc4Chunks := by
  have h := @chunkContent_two_replicate 'a' 'b' (by decide) (by decide) 1 3500
    (by decide) (by decide) (by decide) (by decide)
  rw [show ((1:Nat) - (1 - 200)) = 1 from by norm_num] at h
  rw [show (((1:Nat)) : Int) = 1 from by norm_num] at h
  rw [show ((1:Nat) + 2 + 3500) = 3503 from by norm_num] at h
  rw [show (((3503:Nat)) : Int) = 3503 from by norm_num] at h
  rw [show ((1:Int) - 200) = -199 from by norm_num] at h
  rw [show ((-199:Int) + 3503) = 3304 from by norm_num] at h
  exact h

/-! Structural facts about `chunkContent` used by the batch-invariant claims. -/

theorem chunkContent_cases (content : List Char) (cs : List Chunk)
    (h : chunkContent content = Except.ok cs) :
    cs = [] ∨
    ((jsTrim content).length ≤ MAX_CHUNK_SIZE ∧
      cs = [{ text := jsTrim content, index := 0, total := 1, start := 0,
              endPos := ((jsTrim content).length : Int) }]) ∨
    (∃ st, st = List.foldl stepPara { chunks := [], current := [], startIdx := 0 }
        (splitIntoParagraphs (jsTrim content)) ∧
      cs = (closeFinal st).map (fun c => { c with total := (closeFinal st).length })) := by
  simp only [chunkContent] at h
  split at h
  · left
    simpa using h.symm
  · split at h
    · exact absurd h (by simp)
    · split at h
      · right
        left
        next hle =>
        exact ⟨hle, by simpa using h.symm⟩
      · right
        right
        exact ⟨_, rfl, by simpa using h.symm⟩

theorem foldl_stepPara_inv {P : ChunkState → Prop} :
    ∀ (ps : List (List Char)) (st : ChunkState),
      (∀ st' p, p ∈ ps → P st' → P (stepPara st' p)) →
      P st → P (List.foldl stepPara st ps) := by
  intro ps
  induction ps with
  | nil =>
    intro st _ h
    simpa using h
  | cons p ps ih =>
    intro st hstep h
    rw [List.foldl_cons]
    exact ih _ (fun st' q hq => hstep st' q (List.mem_cons_of_mem _ hq))
      (hstep st p (List.mem_cons_self _ _) h)

theorem stepPara_spec (st : ChunkState) (p : List Char) :
    (¬ (MAX_CHUNK_SIZE < (potentialChunkOf st p).length ∧ 0 < st.current.length) ∧
      stepPara st p = { st with current := potentialChunkOf st p }) ∨
    (0 < st.current.length ∧
      stepPara st p =
        { chunks := st.chunks ++ [{ text := st.current, index := st.chunks.length, total := 0,
                                    start := st.startIdx, endPos := st.startIdx + st.current.length }],
          current := sliceLast CHUNK_OVERLAP st.current ++ paragraphSeparator ++ p,
          startIdx := st.startIdx + st.current.length - CHUNK_OVERLAP }) := by
  unfold stepPara
  split
  next hc => exact Or.inr ⟨hc.2, rfl⟩
  next hc => exact Or.inl ⟨hc, rfl⟩

theorem closeFinal_spec (st : ChunkState) :
    (closeFinal st = st.chunks) ∨
    (closeFinal st =
      st.chunks ++ [{ text := st.current, index := st.chunks.length, total := 0,
                      start := st.startIdx, endPos := st.startIdx + st.current.length }]) := by
  unfold closeFinal
  split
  · exact Or.inr rfl
  · exact Or.inl rfl

/-- The invariant behind claim C5: pushed chunk indexes are `0, 1, ...` in
order. -/
def indexesOK (cs : List Chunk) : Prop := cs.map Chunk.index = List.range cs.length

theorem indexesOK_concat (cs : List Chunk) (c : Chunk) (hc : c.index = cs.length)
    (h : indexesOK cs) : indexesOK (cs ++ [c]) := by
  unfold indexesOK at h ⊢
  simp only [List.map_append, List.length_append, List.map_cons, List.map_nil,
    List.length_cons, List.length_nil, hc]
  rw [h]
  simp [List.range_succ]

theorem stepPara_indexes (st : ChunkState) (p : List Char) (h : indexesOK st.chunks) :
    indexesOK (stepPara st p).chunks := by
  rcases stepPara_spec st p with ⟨_, heq⟩ | ⟨_, heq⟩ <;> rw [heq]
  · exact h
  · exact indexesOK_concat _ _ rfl h

theorem closeFinal_indexes (st : ChunkState) (h : indexesOK st.chunks) :
    indexesOK (closeFinal st) := by
  rcases closeFinal_spec st with heq | heq <;> rw [heq]
  · exact h
  · exact indexesOK_concat _ _ rfl h

theorem indexesOK_map_total (cs : List Chunk) (T : Nat) (h : indexesOK cs) :
    indexesOK (cs.map (fun c => { c with total := T })) := by
  unfold indexesOK at h ⊢
  rw [List.map_map, List.length_map]
  exact h

/-! Offset-layout machinery for the coverage claim. -/

/-- Consecutive chunks satisfy `next.start = previous.endPos - 200`. -/
def chunkChain (cs : List Chunk) : Prop :=
  List.Chain' (fun x y => y.start = x.endPos - (CHUNK_OVERLAP : Int)) cs

/-- Every chunk satisfies `endPos = start + length(text)`. -/
def chunkSpans (cs : List Chunk) : Prop :=
  ∀ c ∈ cs, c.endPos = c.start + c.text.length

/-- The first chunk (when present) starts at offset 0. -/
def headStartZero (cs : List Chunk) : Prop :=
  ∀ c, cs.head? = some c → c.start = 0

/-- The chunk-list part of the layout invariant. -/
def chunkLayout (cs : List Chunk) : Prop :=
  chunkChain cs ∧ chunkSpans cs ∧ headStartZero cs

/-- The layout invariant of the accumulation loop: the pushed chunks are laid
out correctly and `startIdx` is pinned to the last pushed chunk (or 0). -/
def layoutInv (st : ChunkState) : Prop :=
  chunkLayout st.chunks ∧
  (st.chunks = [] → st.startIdx = 0) ∧
  (∀ c, st.chunks.getLast? = some c → st.startIdx = c.endPos - (CHUNK_OVERLAP : Int))

theorem chunkLayout_nil : chunkLayout [] := by
  refine ⟨List.chain'_nil, ?_, ?_⟩
  · intro c hc
    simp at hc
  · intro c hc
    simp at hc

theorem chunkLayout_push (cs : List Chunk) (startIdx : Int) (hCP : chunkLayout cs)
    (h0 : cs = [] → startIdx = 0)
    (hlink : ∀ d, cs.getLast? = some d → startIdx = d.endPos - (CHUNK_OVERLAP : Int))
    (c : Chunk) (hstart : c.start = startIdx)
    (hend : c.endPos = startIdx + c.text.length) :
    chunkLayout (cs ++ [c]) := by
  obtain ⟨hch, hsp, hhd⟩ := hCP
  refine ⟨?_, ?_, ?_⟩
  · rw [chunkChain, List.chain'_append]
    refine ⟨hch, List.chain'_singleton _, ?_⟩
    intro x hx y hy
    simp only [List.head?_cons, Option.mem_def, Option.some.injEq] at hy
    subst hy
    rw [hstart, hlink x hx]
  · intro d hd
    rcases List.mem_append.1 hd with hmem | hmem
    · exact hsp d hmem
    · simp only [List.mem_singleton] at hmem
      subst hmem
      rw [hend, hstart]
  · intro d hd
    cases cs with
    | nil =>
      simp only [List.nil_append, List.head?_cons, Option.some.injEq] at hd
      subst hd
      rw [hstart, h0 rfl]
    | cons e t =>
      simp only [List.cons_append, List.head?_cons, Option.some.injEq] at hd
      subst hd
      exact hhd _ rfl

theorem layoutInv_init : layoutInv { chunks := [], current := [], startIdx := 0 } := by
  refine ⟨chunkLayout_nil, fun _ => rfl, ?_⟩
  intro c hc
  simp at hc

theorem layoutInv_step (st : ChunkState) (p : List Char) (h : layoutInv st) :
    layoutInv (stepPara st p) := by
  obtain ⟨hCP, h0, hlink⟩ := h
  rcases stepPara_spec st p with ⟨_, heq⟩ | ⟨_, heq⟩ <;> rw [heq]
  · exact ⟨hCP, h0, hlink⟩
  · refine ⟨?_, ?_, ?_⟩
    · exact chunkLayout_push st.chunks st.startIdx hCP h0 hlink _ rfl rfl
    · intro habs
      exact absurd habs (by simp)
    · intro c hc
      rw [List.getLast?_concat] at hc
      simp only [Option.some.injEq] at hc
      subst hc
      rfl

theorem layoutInv_closeFinal (st : ChunkState) (h : layoutInv st) :
    chunkLayout (closeFinal st) := by
  obtain ⟨hCP, h0, hlink⟩ := h
  rcases closeFinal_spec st with heq | heq <;> rw [heq]
  · exact hCP
  · exact chunkLayout_push st.chunks st.startIdx hCP h0 hlink _ rfl rfl

theorem chunkLayout_map_total (cs : List Chunk) (T : Nat) (h : chunkLayout cs) :
    chunkLayout (cs.map (fun c => { c with total := T })) := by
  obtain ⟨hch, hsp, hhd⟩ := h
  refine ⟨?_, ?_, ?_⟩
  · rw [chunkChain, List.chain'_map]
    exact hch
  · intro c hc
    simp only [List.mem_map] at hc
    obtain ⟨c', hc', rfl⟩ := hc
    exact hsp c' hc'
  · intro c hc
    cases cs with
    | nil => simp at hc
    | cons d t =>
      simp only [List.map_cons, List.head?_cons, Option.some.injEq] at hc
      subst hc
      simpa using hhd d rfl

/-- Executable check for the chain condition `next.start = prev.endPos - 200`. -/
def chainStartsBool : List Chunk → Bool
  | [] => true
  | [_] => true
  | x :: y :: t => (y.start == x.endPos - (CHUNK_OVERLAP : Int)) && chainStartsBool (y :: t)

/-- Executable form of `chunkLayout`. -/
def chunkLayoutCheck (cs : List Chunk) : Bool :=
  chainStartsBool cs &&
  cs.all (fun c => c.endPos == c.start + c.text.length) &&
  (match cs.head? with
   | none => true
   | some c => c.start == 0)

theorem chainStartsBool_eq_true : ∀ cs, chainStartsBool cs = true ↔ chunkChain cs := by
  intro cs
  induction cs with
  | nil => simp [chainStartsBool, chunkChain]
  | cons x t ih =>
    cases t with
    | nil => simp [chainStartsBool, chunkChain]
    | cons y t2 =>
      simp only [chainStartsBool, Bool.and_eq_true, ih]
      unfold chunkChain
      rw [List.chain'_cons]
      simp [beq_iff_eq]

theorem chunkLayoutCheck_eq_true (cs : List Chunk) :
    chunkLayoutCheck cs = true ↔ chunkLayout cs := by
  unfold chunkLayoutCheck chunkLayout
  cases cs with
  | nil => simp [chainStartsBool, chunkSpans, headStartZero, chunkChain]
  | cons x t =>
    rw [Bool.and_eq_true, Bool.and_eq_true, chainStartsBool_eq_true]
    simp only [List.head?_cons]
    constructor
    · rintro ⟨⟨hch, hall⟩, hhd⟩
      refine ⟨hch, ?_, ?_⟩
      · intro c hc
        simpa using List.all_eq_true.1 hall c hc
      · intro c hc
        simp only [List.head?_cons, Option.some.injEq] at hc
        subst hc
        simpa using hhd
    · rintro ⟨hch, hsp, hhd⟩
      refine ⟨⟨hch, ?_⟩, ?_⟩
      · rw [List.all_eq_true]
        intro c hc
        simpa using hsp c hc
      · simpa using hhd x rfl

/-! Chunk-size bound machinery. -/

/-- The size invariant of the accumulation loop: when every paragraph is at
most 3500 characters, all chunk texts and the running chunk stay within
3500 + 200 + 2 characters. -/
def boundInv (st : ChunkState) : Prop :=
  (∀ c ∈ st.chunks, c.text.length ≤ MAX_CHUNK_SIZE + CHUNK_OVERLAP + 2) ∧
  st.current.length ≤ MAX_CHUNK_SIZE + CHUNK_OVERLAP + 2

theorem boundInv_step (st : ChunkState) (p : List Char)
    (hp : p.length ≤ MAX_CHUNK_SIZE) (h : boundInv st) : boundInv (stepPara st p) := by
  obtain ⟨hall, hcur⟩ := h
  rcases stepPara_spec st p with ⟨hc, heq⟩ | ⟨hcpos, heq⟩ <;> rw [heq]
  · refine ⟨hall, ?_⟩
    show (potentialChunkOf st p).length ≤ _
    rcases Nat.eq_zero_or_pos st.current.length with h0 | h0
    · have hemp : st.current.isEmpty = true := by
        rw [List.isEmpty_iff]
        exact List.length_eq_zero.1 h0
      have hpe : potentialChunkOf st p = p := by
        unfold potentialChunkOf
        rw [hemp]
        rfl
      rw [hpe]
      omega
    · have hpot : ¬ MAX_CHUNK_SIZE < (potentialChunkOf st p).length :=
        fun hgt => hc ⟨hgt, h0⟩
      omega
  · refine ⟨?_, ?_⟩
    · intro c hcm
      rcases List.mem_append.1 hcm with hm | hm
      · exact hall c hm
      · simp only [List.mem_singleton] at hm
        subst hm
        simpa using hcur
    · show (sliceLast CHUNK_OVERLAP st.current ++ paragraphSeparator ++ p).length ≤ _
      have h1 : (sliceLast CHUNK_OVERLAP st.current).length ≤ CHUNK_OVERLAP := by
        unfold sliceLast
        rw [List.length_drop]
        omega
      simp only [List.length_append, paragraphSeparator, List.length_cons, List.length_nil]
      omega

theorem boundInv_closeFinal (st : ChunkState) (h : boundInv st) :
    ∀ c ∈ closeFinal st, c.text.length ≤ MAX_CHUNK_SIZE + CHUNK_OVERLAP + 2 := by
  rcases closeFinal_spec st with heq | heq <;> rw [heq]
  · exact h.1
  · intro c hc
    rcases List.mem_append.1 hc with hm | hm
    · exact h.1 c hm
    · simp only [List.mem_singleton] at hm
      subst hm
      simpa using h.2

/-! Non-successor forms of the two-paragraph evaluation lemmas. -/

theorem jsTrim_two_replicate' {a b : Char} (ha : isJsWhitespace a = false)
    (hb : isJsWhitespace b = false) (na nb : Nat) (hna : 0 < na) (hnb : 0 < nb) :
    jsTrim (List.replicate na a ++ ['\n', '\n'] ++ List.replicate nb b) =
      List.replicate na a ++ ['\n', '\n'] ++ List.replicate nb b := by
  obtain ⟨ma, rfl⟩ : ∃ m, na = m + 1 := ⟨na - 1, by omega⟩
  obtain ⟨mb, rfl⟩ : ∃ m, nb = m + 1 := ⟨nb - 1, by omega⟩
  exact jsTrim_two_replicate ha hb ma mb

theorem splitIntoParagraphs_two_replicate' {a b : Char} (ha : isJsWhitespace a = false)
    (hb : isJsWhitespace b = false) (na nb : Nat) (hna : 0 < na) (hnb : 0 < nb) :
    splitIntoParagraphs (List.replicate na a ++ ['\n', '\n'] ++ List.replicate nb b) =
      [List.replicate na a, List.replicate nb b] := by
  obtain ⟨ma, rfl⟩ : ∃ m, na = m + 1 := ⟨na - 1, by omega⟩
  obtain ⟨mb, rfl⟩ : ∃ m, nb = m + 1 := ⟨nb - 1, by omega⟩
  exact splitIntoParagraphs_two_replicate ha hb ma mb

theorem jsTrim_doc3 : jsTrim doc3 = doc3 := by
  unfold doc3
  exact jsTrim_two_replicate' (by decide) (by decide) 3400 3400 (by norm_num) (by norm_num)

theorem paragraphs_doc3 :
    splitIntoParagraphs (jsTrim doc3) = [List.replicate 3400 'b', List.replicate 3400 'c'] := by
  rw [jsTrim_doc3]
  unfold doc3
  exact splitIntoParagraphs_two_replicate' (by decide) (by decide) 3400 3400
    (by norm_num) (by norm_num)

theorem jsTrim_doc4 : jsTrim doc4 = doc4 := by
  unfold doc4
  exact jsTrim_two_replicate' (by decide) (by decide) 1 3500 (by norm_num) (by norm_num)

/-! Claim theorems about multi-chunk batches. -/

/-- C3 fails as stated: in `doc3` every paragraph has 3400 ≤ 3500 characters,
yet the second chunk (overlap + separator + paragraph) has 3602 > 3500
characters even though it contains no oversized paragraph. -/
theorem C3_counterexample :
    (splitIntoParagraphs (jsTrim doc3)).map List.length = [3400, 3400] ∧
    3400 ≤ MAX_CHUNK_SIZE ∧
    chunkContent doc3 = Except.ok doc3Chunks ∧
    doc3Chunks.map (fun c => c.text.length) = [3400, 3602] ∧
    ¬ (3602 ≤ MAX_CHUNK_SIZE) := by
  refine ⟨?_, by decide, chunkContent_doc3, ?_, by decide⟩
  · rw [paragraphs_doc3]
    simp only [List.map_cons, List.map_nil, List.length_replicate]
  · simp only [doc3Chunks, List.map_cons, List.map_nil, List.length_append,
      List.length_replicate, List.length_cons, List.length_nil]

/-- C3 (amended): when every paragraph of the accepted document is at most
3500 characters, every chunk text is at most 3500 + 200 + 2 = 3702 characters
(the per-chunk maximum plus the 200-character overlap seed and the
2-character paragraph separator). -/
theorem C3_chunk_size_bound (content : List Char) (cs : List Chunk)
    (h : chunkContent content = Except.ok cs)
    (hpar : (splitIntoParagraphs (jsTrim content)).all
      (fun p => p.length ≤ MAX_CHUNK_SIZE) = true) :
    cs.all (fun c => c.text.length ≤ MAX_CHUNK_SIZE + CHUNK_OVERLAP + 2) = true := by
  rw [List.all_eq_true]
  intro c hc
  simp only [decide_eq_true_eq]
  rcases chunkContent_cases content cs h with hnil | ⟨hle, hcs⟩ | ⟨st, hst, hcs⟩
  · subst hnil
    simp at hc
  · subst hcs
    simp only [List.mem_singleton] at hc
    subst hc
    show (jsTrim content).length ≤ _
    omega
  · subst hcs
    simp only [List.mem_map] at hc
    obtain ⟨c', hc', rfl⟩ := hc
    have hinv : boundInv (List.foldl stepPara { chunks := [], current := [], startIdx := 0 }
        (splitIntoParagraphs (jsTrim content))) := by
      apply foldl_stepPara_inv
      · intro st' p hp hin
        refine boundInv_step st' p ?_ hin
        simpa using List.all_eq_true.1 hpar p hp
      · exact ⟨fun c hc0 => absurd hc0 (by simp), by simp⟩
    rw [← hst] at hinv
    simpa using boundInv_closeFinal st hinv c' hc'

/-- Witness for the amended C3 at the concrete two-paragraph document
`doc3`. -/
theorem C3_chunk_size_bound_witness :
    doc3Chunks.all (fun c => c.text.length ≤ MAX_CHUNK_SIZE + CHUNK_OVERLAP + 2) = true := by
  apply C3_chunk_size_bound doc3 doc3Chunks chunkContent_doc3
  rw [paragraphs_doc3]
  simp only [List.all_cons, List.all_nil, List.length_replicate, Bool.and_true]
  decide

/-- C4 fails as stated: in `doc4` the chunk start offsets are `[0, -199]`
(decreasing, and negative), and the chunk ranges stop at offset 3304 while the
trimmed document has 3503 characters, so the union of `[start, endPos)` does
not cover `[0, len(trim(D)))`. -/
theorem C4_counterexample :
    chunkContent doc4 = Except.ok doc4Chunks ∧
    doc4Chunks.map Chunk.start = [0, -199] ∧
    ¬ ((0:Int) ≤ -199) ∧
    (jsTrim doc4).length = 3503 ∧
    doc4Chunks.map Chunk.endPos = [1, 3304] ∧
    ¬ ((3304:Int) = 3503) := by
  refine ⟨chunkContent_doc4,
    by simp only [doc4Chunks, List.map_cons, List.map_nil], by decide, ?_,
    by simp only [doc4Chunks, List.map_cons, List.map_nil], by decide⟩
  rw [jsTrim_doc4]
  unfold doc4
  simp only [List.length_append, List.length_replicate, List.length_cons, List.length_nil]

/-- C4 (amended): for every accepted document, every chunk satisfies
`endPos = start + len(text)`, the first chunk starts at offset 0, and each
later chunk starts exactly 200 offsets before the previous chunk's `endPos`
(so consecutive ranges leave no gap between them); the union of the ranges,
however, need not coincide with `[0, len(trim(D)))`, and starts can decrease
when a closed chunk is shorter than the 200-character overlap. -/
theorem C4_layout (content : List Char) (cs : List Chunk)
    (h : chunkContent content = Except.ok cs) :
    chunkLayoutCheck cs = true := by
  rw [chunkLayoutCheck_eq_true]
  rcases chunkContent_cases content cs h with hnil | ⟨hle, hcs⟩ | ⟨st, hst, hcs⟩
  · subst hnil
    exact chunkLayout_nil
  · subst hcs
    refine ⟨List.chain'_singleton _, ?_, ?_⟩
    · intro c hc
      simp only [List.mem_singleton] at hc
      subst hc
      simp
    · intro c hc
      simp only [List.head?_cons, Option.some.injEq] at hc
      subst hc
      rfl
  · subst hcs
    apply chunkLayout_map_total
    apply layoutInv_closeFinal
    rw [hst]
    exact foldl_stepPara_inv _ _ (fun st' p _ h' => layoutInv_step st' p h') layoutInv_init

/-- Witness for the amended C4 at the concrete two-chunk document `doc3`. -/
theorem C4_layout_witness : chunkLayoutCheck doc3Chunks = true :=
  C4_layout doc3 doc3Chunks chunkContent_doc3

/-- C5: in every accepted batch the `index` fields are exactly
`0, 1, ..., total - 1` in order and every chunk's `total` equals the number of
chunks returned. -/
theorem C5_total_consistency (content : List Char) (cs : List Chunk)
    (h : chunkContent content = Except.ok cs) :
    cs.map Chunk.index = List.range cs.length ∧
    cs.all (fun c => c.total = cs.length) = true := by
  rcases chunkContent_cases content cs h with hnil | ⟨hle, hcs⟩ | ⟨st, hst, hcs⟩
  · subst hnil
    exact ⟨rfl, rfl⟩
  · subst hcs
    exact ⟨by simp [List.range_succ], by simp⟩
  · subst hcs
    have hidx : indexesOK ((closeFinal st).map fun c => { c with total := (closeFinal st).length }) := by
      apply indexesOK_map_total
      apply closeFinal_indexes
      rw [hst]
      exact foldl_stepPara_inv _ _ (fun st' p _ h' => stepPara_indexes st' p h') rfl
    refine ⟨hidx, ?_⟩
    rw [List.all_eq_true]
    intro c hc
    simp only [List.mem_map] at hc
    obtain ⟨c', hc', rfl⟩ := hc
    simp [List.length_map]

/-- Five-character document producing a single chunk. -/
def fiveCharDoc : List Char := ['h', 'e', 'l', 'l', 'o']

/-- Single-chunk batch used to instantiate C5. -/
def sampleShortChunks : List Chunk :=
  [{ text := ['h', 'e', 'l', 'l', 'o'], index := 0, total := 1, start := 0, endPos := 5 }]

/-- Witness for C5 at a concrete single-chunk document. -/
theorem C5_total_consistency_witness :
    sampleShortChunks.map Chunk.index = List.range sampleShortChunks.length ∧
    sampleShortChunks.all (fun c => c.total = sampleShortChunks.length) = true :=
  C5_total_consistency fiveCharDoc sampleShortChunks (by rfl)

/-! Claim theorems about the single-chunk path, the size ceiling and empty
input. -/

/-- Sample five-character document used to instantiate single-chunk claims. -/
def sampleShortDoc : List Char := ['h', 'e', 'l', 'l', 'o']

/-- Concrete oversize document: 50001 copies of 'a'. -/
def oversizeDoc : List Char := List.replicate 50001 'a'

/-- C1 fails on the empty document: its trimmed length is at most 3500, yet
`chunkContent` returns the empty chunk list rather than exactly one chunk with
`index = 0`, `total = 1` spanning the trimmed document. -/
theorem C1_counterexample :
    (jsTrim ([] : List Char)).length ≤ MAX_CHUNK_SIZE ∧
    chunkContent [] = Except.ok [] ∧
    (Except.ok ([] : List Chunk) : Except ChunkError (List Chunk)) ≠
      Except.ok [({ text := jsTrim [], index := 0, total := 1, start := 0,
                    endPos := ((jsTrim ([] : List Char)).length : Int) } : Chunk)] := by
  exact ⟨by decide, rfl, by simp⟩

/-- C1 (amended): for every document with positive trimmed length at most
3500 characters, `chunkContent` returns exactly one chunk whose text is the
trimmed document, with `index = 0`, `total = 1`, `start = 0` and `endPos` the
trimmed length. -/
theorem C1_single_chunk (content : List Char)
    (hpos : 0 < (jsTrim content).length)
    (hle : (jsTrim content).length ≤ MAX_CHUNK_SIZE) :
    chunkContent content =
      Except.ok [{ text := jsTrim content, index := 0, total := 1, start := 0,
                   endPos := ((jsTrim content).length : Int) }] := by
  have hne : content.isEmpty = false := isEmpty_eq_false_of_jsTrim_length_pos hpos
  have h1 : ¬ (content.isEmpty ∨ (jsTrim content).length = 0) := by
    simp only [hne, Bool.false_eq_true, false_or]
    omega
  have h2 : ¬ (MAX_DOCUMENT_SIZE < (jsTrim content).length) := by
    have hle' : (jsTrim content).length ≤ 3500 := hle
    show ¬ (50000 < (jsTrim content).length)
    omega
  simp only [chunkContent]
  rw [if_neg h1, if_neg h2, if_pos hle]

/-- Witness for the amended C1 at a concrete five-character document. -/
theorem C1_single_chunk_witness :
    chunkContent sampleShortDoc =
      Except.ok [{ text := jsTrim sampleShortDoc, index := 0, total := 1, start := 0,
                   endPos := ((jsTrim sampleShortDoc).length : Int) }] :=
  C1_single_chunk sampleShortDoc (by decide) (by decide)

/-- C2: any document whose trimmed length exceeds 50000 characters is rejected
by both `chunkContent` (thrown content-too-large error) and
`validateContentLength` (invalid result), each reporting the measured trimmed
length together with the 50000-character limit. -/
theorem C2_size_ceiling (content : List Char)
    (h : MAX_DOCUMENT_SIZE < (jsTrim content).length) :
    chunkContent content =
      Except.error (ChunkError.contentTooLarge (jsTrim content).length MAX_DOCUMENT_SIZE) ∧
    validateContentLength content =
      { valid := false,
        error := some (ValidationError.contentTooLong (jsTrim content).length MAX_DOCUMENT_SIZE),
        length := some (jsTrim content).length } := by
  have hpos : 0 < (jsTrim content).length := by
    have h' : (50000 : Nat) < (jsTrim content).length := h
    omega
  have hne : content.isEmpty = false := isEmpty_eq_false_of_jsTrim_length_pos hpos
  have h1 : ¬ (content.isEmpty ∨ (jsTrim content).length = 0) := by
    simp only [hne, Bool.false_eq_true, false_or]
    omega
  constructor
  · simp only [chunkContent]
    rw [if_neg h1, if_pos h]
  · simp only [validateContentLength]
    rw [if_neg h1, if_pos h]

/-- Witness for C2 at a 50001-character document. -/
theorem C2_size_ceiling_witness :
    chunkContent oversizeDoc =
      Except.error (ChunkError.contentTooLarge 50001 50000) ∧
    validateContentLength oversizeDoc =
      { valid := false,
        error := some (ValidationError.contentTooLong 50001 50000),
        length := some 50001 } := by
  have htrim : jsTrim oversizeDoc = List.replicate 50001 'a' :=
    jsTrim_replicate (by decide) 50001
  have hlen : (jsTrim oversizeDoc).length = 50001 := by
    rw [htrim, List.length_replicate]
  have h := C2_size_ceiling oversizeDoc (by rw [hlen]; decide)
  rw [hlen] at h
  exact h

/-- C10: inputs that are empty or trim to the empty string produce the empty
chunk sequence (no error and no singleton chunk) and are reported invalid with
the fixed "No content to process" error. -/
theorem C10_empty_input (content : List Char) (h : (jsTrim content).length = 0) :
    chunkContent content = Except.ok [] ∧
    validateContentLength content =
      { valid := false, error := some ValidationError.noContent, length := none } ∧
    ValidationError.noContent.message = "No content to process" := by
  have h1 : content.isEmpty ∨ (jsTrim content).length = 0 := Or.inr h
  refine ⟨?_, ?_, rfl⟩
  · simp only [chunkContent]
    rw [if_pos h1]
  · simp only [validateContentLength]
    rw [if_pos h1]

/-- Witness for C10 at a whitespace-only input. -/
theorem C10_empty_input_witness :
    chunkContent [' ', ' ', '\n'] = Except.ok [] ∧
    validateContentLength [' ', ' ', '\n'] =
      { valid := false, error := some ValidationError.noContent, length := none } ∧
    ValidationError.noContent.message = "No content to process" :=
  C10_empty_input [' ', ' ', '\n'] (by decide)

/-! Key-point extraction model (`key-points.js`): the local fallback
deduplication `deduplicateSimple` and its specification-side description. -/

/-- The importance enumeration of a key point. -/
inductive Importance where
  | high
  | medium
  | low
deriving DecidableEq

/-- The category enumeration of a key point. -/
inductive Category where
  | privacy
  | data
  | rights
  | legal
  | financial
  | other
deriving DecidableEq

/-- A key point produced by per-chunk extraction. -/
structure KeyPoint where
  point : List Char
  importance : Importance
  category : Category
  chunkIndex : Nat
deriving DecidableEq

/-- JS `s.toLowerCase()` (character-wise lowering via `Char.toLower`). -/
def lowercase (s : List Char) : List Char := s.map Char.toLower

/-- The dedup key `kp.point.toLowerCase().trim()` used by `deduplicateSimple`. -/
def normalizedKey (kp : KeyPoint) : List Char := jsTrim (lowercase kp.point)

/-- JS `importanceOrder = { high: 0, medium: 1, low: 2 }`. -/
def importanceOrder : Importance → Nat
  | .high => 0
  | .medium => 1
  | .low => 2

/-- The comparator `(a, b) => importanceOrder[a.importance] - importanceOrder[b.importance]`
read as a total preorder (`a` sorts no later than `b`). -/
def importanceLe (a b : KeyPoint) : Bool :=
  importanceOrder a.importance ≤ importanceOrder b.importance

/-- The first-occurrence loop of `deduplicateSimple`: the JS `seen` set of
normalized keys and the `uniquePoints` push-accumulator threaded explicitly
(the accumulator is reversed at the end). -/
def dedupFirstPass : List KeyPoint → List (List Char) → List KeyPoint → List KeyPoint
  | [], _, acc => acc.reverse
  | kp :: rest, seen, acc =>
    if normalizedKey kp ∈ seen then dedupFirstPass rest seen acc
    else dedupFirstPass rest (normalizedKey kp :: seen) (kp :: acc)

/-- Embedding of `deduplicateSimple` from `key-points.js`: keep the first
occurrence per normalized key, sort by importance rank with the stable
(ES2019) JS array sort — embedded as `List.mergeSort` — and keep the first
10 elements (`slice(0, 10)`). -/
def deduplicateSimple (keyPoints : List KeyPoint) : List KeyPoint :=
  ((dedupFirstPass keyPoints [] []).mergeSort importanceLe).take 10

/-- Specification-side description of the fallback (4.3-3): keep the first
occurrence of each lowercased-and-trimmed point text (removing every later
element with the same key), stable-sort by importance rank, truncate to 10. -/
def keepFirstOccurrence : List KeyPoint → List KeyPoint
  | [] => []
  | kp :: rest =>
      kp :: keepFirstOccurrence (rest.filter fun k => normalizedKey k ≠ normalizedKey kp)
termination_by l => l.length
decreasing_by
  simp only [List.length_cons]
  exact Nat.lt_succ_of_le (List.length_filter_le _ _)

/-- The fallback dedup as described by the specification. -/
def specFallbackDedup (keyPoints : List KeyPoint) : List KeyPoint :=
  ((keepFirstOccurrence keyPoints).mergeSort importanceLe).take 10

theorem dedupFirstPass_eq (kps : List KeyPoint) :
    ∀ (seen : List (List Char)) (acc : List KeyPoint),
      dedupFirstPass kps seen acc =
        acc.reverse ++ keepFirstOccurrence (kps.filter fun k => normalizedKey k ∉ seen) := by
  induction kps with
  | nil =>
    intro seen acc
    simp [dedupFirstPass, keepFirstOccurrence]
  | cons kp rest ih =>
    intro seen acc
    by_cases hmem : normalizedKey kp ∈ seen
    · rw [List.filter_cons_of_neg (by simpa using hmem)]
      simp only [dedupFirstPass, if_pos hmem]
      exact ih seen acc
    · rw [List.filter_cons_of_pos (by simpa using hmem)]
      simp only [dedupFirstPass, if_neg hmem]
      rw [ih (normalizedKey kp :: seen) (kp :: acc)]
      rw [keepFirstOccurrence]
      rw [List.filter_filter]
      have hfc : ∀ a ∈ rest,
          (decide (normalizedKey a ≠ normalizedKey kp) && decide (normalizedKey a ∉ seen)) =
            decide (normalizedKey a ∉ normalizedKey kp :: seen) := by
        intro a _
        simp [List.mem_cons, not_or]
      rw [List.filter_congr hfc]
      simp [List.append_assoc]

theorem dedupFirstPass_eq_keepFirst (kps : List KeyPoint) :
    dedupFirstPass kps [] [] = keepFirstOccurrence kps := by
  rw [dedupFirstPass_eq]
  have h : (kps.filter fun k => normalizedKey k ∉ ([] : List (List Char))) = kps := by
    apply List.filter_eq_self.2
    intro a _
    simp
  rw [h]
  simp

theorem keepFirstOccurrence_subset : ∀ l : List KeyPoint, keepFirstOccurrence l ⊆ l := by
  intro l
  induction l using keepFirstOccurrence.induct with
  | case1 => simp [keepFirstOccurrence]
  | case2 kp rest ih =>
    rw [keepFirstOccurrence]
    intro x hx
    rcases List.mem_cons.1 hx with rfl | hx2
    · exact List.mem_cons_self _ _
    · exact List.mem_cons_of_mem _ (List.mem_of_mem_filter (ih hx2))

theorem keepFirstOccurrence_pairwise :
    ∀ l : List KeyPoint, (keepFirstOccurrence l).Pairwise
      (fun a b => normalizedKey a ≠ normalizedKey b) := by
  intro l
  induction l using keepFirstOccurrence.induct with
  | case1 => simp [keepFirstOccurrence]
  | case2 kp rest ih =>
    rw [keepFirstOccurrence]
    refine List.Pairwise.cons ?_ ih
    intro b hb
    have hb2 := keepFirstOccurrence_subset _ hb
    have := List.of_mem_filter hb2
    simp only [decide_eq_true_eq] at this
    exact fun heq => this heq.symm

theorem keepFirstOccurrence_eq_self :
    ∀ l : List KeyPoint,
      l.Pairwise (fun a b => normalizedKey a ≠ normalizedKey b) →
      keepFirstOccurrence l = l := by
  intro l
  induction l using keepFirstOccurrence.induct with
  | case1 =>
    intro _
    simp [keepFirstOccurrence]
  | case2 kp rest ih =>
    intro hpw
    have hfil : (rest.filter fun k => normalizedKey k ≠ normalizedKey kp) = rest := by
      apply List.filter_eq_self.2
      intro a ha
      simpa using (List.pairwise_cons.1 hpw).1 a ha |>.symm
    rw [keepFirstOccurrence, hfil]
    rw [hfil] at ih
    rw [ih (List.pairwise_cons.1 hpw).2]

theorem importanceLe_trans :
    ∀ a b c : KeyPoint, importanceLe a b → importanceLe b c → importanceLe a c := by
  intro a b c hab hbc
  simp only [importanceLe, decide_eq_true_eq] at *
  omega

theorem importanceLe_total : ∀ a b : KeyPoint, importanceLe a b || importanceLe b a := by
  intro a b
  simp only [importanceLe, Bool.or_eq_true, decide_eq_true_eq]
  omega

/-- C6: the local fallback deduplication of `key-points.js` computes exactly
the algorithm the specification describes: keep the first occurrence of each
lowercased-and-trimmed point text, stable-sort the survivors by importance
rank (high = 0, medium = 1, low = 2), and truncate to the first 10. -/
theorem C6_dedup_matches_spec (keyPoints : List KeyPoint) :
    deduplicateSimple keyPoints = specFallbackDedup keyPoints := by
  unfold deduplicateSimple specFallbackDedup
  rw [dedupFirstPass_eq_keepFirst]

/-- C7: applying the local fallback deduplication twice yields the same list
as applying it once. -/
theorem C7_dedup_idempotent (keyPoints : List KeyPoint) :
    deduplicateSimple (deduplicateSimple keyPoints) = deduplicateSimple keyPoints := by
  unfold deduplicateSimple
  rw [dedupFirstPass_eq_keepFirst]
  have hpw : ((keepFirstOccurrence keyPoints).mergeSort importanceLe).Pairwise
      (fun a b => normalizedKey a ≠ normalizedKey b) :=
    (List.Perm.pairwise_iff (fun h => Ne.symm h)
      (List.mergeSort_perm (keepFirstOccurrence keyPoints) importanceLe)).2
      (keepFirstOccurrence_pairwise keyPoints)
  have hpw10 := List.Pairwise.sublist (List.take_sublist 10 _) hpw
  have hsorted : ((keepFirstOccurrence keyPoints).mergeSort importanceLe).Pairwise
      (fun a b => importanceLe a b) :=
    List.sorted_mergeSort importanceLe_trans importanceLe_total _
  have hsorted10 := List.Pairwise.sublist (List.take_sublist 10 _) hsorted
  rw [dedupFirstPass_eq_keepFirst keyPoints]
  rw [keepFirstOccurrence_eq_self _ hpw10]
  rw [List.mergeSort_of_sorted hsorted10]
  rw [List.take_take]
  simp

/-! Translation pipeline model (`translator.js`).  The external Chrome AI
calls (`detectLanguage`, `translateText` from `ai-apis.js`) are opaque remote
services; they are modelled as an oracle record so that theorems can quantify
over every engine behaviour — a result that holds for all oracles was reached
without any engine call. -/

/-- Failure of an external engine call (carries the JS error message). -/
structure EngineError where
  message : String
deriving DecidableEq

/-- Oracle for the translation/detection engine boundary. -/
structure TranslateEngine where
  detectLanguage : List Char → Except EngineError String
  translateText : List Char → String → String → Except EngineError (List Char)

/-- Result object of `translateContent`; optional JS fields are `none` when
absent from the returned object. -/
structure TranslationResult where
  translatedText : List Char
  sourceLanguage : String
  targetLanguage : String
  note : Option String := none
  chunksProcessed : Option Nat := none
deriving DecidableEq

/-- The note attached to a same-language no-op translation. -/
def sameLanguageNote : String := "Content is already in the target language"

/-- Errors surfaced by `translateContent`: the validation error thrown before
the `try` block (not wrapped), or a wrapped "Translation failed: ..." error
from inside the `try`. -/
inductive TranslateError where
  | invalidContent (e : Option ValidationError)
  | translationFailed (message : String)
deriving DecidableEq

/-- `list.join(sep)`: join pieces with a separator (empty output for an empty
list, as in JS). -/
def joinSep (sep : List Char) : List (List Char) → List Char
  | [] => []
  | [x] => x
  | x :: y :: rest => x ++ sep ++ joinSep sep (y :: rest)

/-- The sequential `for (const chunk of chunks)` translation loop: each chunk
is translated in order and paired with its index; the first engine failure
aborts the loop. -/
def translateChunks (engine : TranslateEngine) (targetLanguage sourceLanguage : String) :
    List Chunk → Except EngineError (List (Nat × List Char))
  | [] => .ok []
  | c :: rest =>
    match engine.translateText c.text targetLanguage sourceLanguage with
    | .error e => .error e
    | .ok translated =>
      match translateChunks engine targetLanguage sourceLanguage rest with
      | .error e => .error e
      | .ok ts => .ok ((c.index, translated) :: ts)

/-- Embedding of `translateContent` from `translator.js`.  The JS
`sourceLanguage` parameter defaults to `null` (modelled `none`); the
truthiness test `!sourceLanguage` also treats the empty string as absent.
Chunk results are re-sorted by index (JS stable sort) and joined with a blank
line. -/
def translateContent (engine : TranslateEngine) (content : List Char)
    (targetLanguage : String) (sourceLanguage : Option String) :
    Except TranslateError TranslationResult :=
  if (validateContentLength content).valid = false then
    .error (.invalidContent (validateContentLength content).error)
  else
    match (match sourceLanguage with
           | none => engine.detectLanguage content
           | some s => if s = "" then engine.detectLanguage content else Except.ok s) with
    | .error e => .error (.translationFailed e.message)
    | .ok source =>
      if source = targetLanguage then
        .ok { translatedText := content, sourceLanguage := source,
              targetLanguage := targetLanguage, note := some sameLanguageNote }
      else
        match chunkContent content with
        | .error e => .error (.translationFailed e.message)
        | .ok chunks =>
          match translateChunks engine targetLanguage source chunks with
          | .error e => .error (.translationFailed e.message)
          | .ok translatedChunks =>
            let fullTranslation := joinSep ['\n', '\n']
              ((translatedChunks.mergeSort (fun a b => a.1 ≤ b.1)).map (fun tc => tc.2))
            .ok { translatedText := fullTranslation, sourceLanguage := source,
                  targetLanguage := targetLanguage,
                  chunksProcessed := some chunks.length }

theorem validateContentLength_valid (content : List Char)
    (hpos : 0 < (jsTrim content).length)
    (hle : (jsTrim content).length ≤ MAX_DOCUMENT_SIZE) :
    validateContentLength content =
      { valid := true, error := none, length := some (jsTrim content).length } := by
  have hne : content.isEmpty = false := isEmpty_eq_false_of_jsTrim_length_pos hpos
  have h1 : ¬ (content.isEmpty ∨ (jsTrim content).length = 0) := by
    simp only [hne, Bool.false_eq_true, false_or]
    omega
  have h2 : ¬ (MAX_DOCUMENT_SIZE < (jsTrim content).length) := by omega
  simp only [validateContentLength]
  rw [if_neg h1, if_neg h2]

/-- C8: for every engine, every non-empty document within the size limit, and
every (non-empty) language code L, `translateContent(document, L, L)` returns
the original text unchanged with `sourceLanguage = targetLanguage = L`, a
non-empty note, and no `chunksProcessed` field; the result is the same for
every engine, so no translation or detection call can have influenced it. -/
theorem C8_same_language (engine : TranslateEngine) (content : List Char) (lang : String)
    (hlang : lang ≠ "")
    (hpos : 0 < (jsTrim content).length)
    (hle : (jsTrim content).length ≤ MAX_DOCUMENT_SIZE) :
    translateContent engine content lang (some lang) =
      Except.ok { translatedText := content, sourceLanguage := lang,
                  targetLanguage := lang, note := some sameLanguageNote,
                  chunksProcessed := none } ∧
    sameLanguageNote ≠ "" := by
  refine ⟨?_, by decide⟩
  unfold translateContent
  rw [validateContentLength_valid content hpos hle]
  rw [if_neg (by simp)]
  dsimp only
  rw [if_neg hlang]
  dsimp only
  rw [if_pos rfl]

/-- Concrete seven-character document. -/
def bonjour : List Char := ['B', 'o', 'n', 'j', 'o', 'u', 'r']

/-- A concrete engine (identity translation, constant detection). -/
def trivialEngine : TranslateEngine :=
  { detectLanguage := fun _ => .ok "en",
    translateText := fun t _ _ => .ok t }

/-- Witness for C8: `translateContent("Bonjour", "fr", "fr")`. -/
theorem C8_same_language_witness :
    translateContent trivialEngine bonjour "fr" (some "fr") =
      Except.ok { translatedText := bonjour, sourceLanguage := "fr",
                  targetLanguage := "fr", note := some sameLanguageNote,
                  chunksProcessed := none } ∧
    sameLanguageNote ≠ "" :=
  C8_same_language trivialEngine bonjour "fr" (by decide) (by decide) (by decide)

/-! Question-answering pipeline model (`qa.js`).  The Prompt-API calls are
external: `promptAPI` (free-form answer; the prompt strings built around the
document text and question are absorbed into the oracle boundary) and
`relevanceCall` (the deterministic JSON completion of `assessChunkRelevance`
composed with the JSON parse, returning the parsed `{score, reasoning}`
object or failing). -/

/-- Parsed JSON relevance response; fields may be missing (`result.score || 0`). -/
structure RelevanceJson where
  score : Option Int := none
  reasoning : Option String := none

/-- Oracle for the QA model-call boundary. -/
structure QAEngine where
  promptAPI : List Char → List Char → Except EngineError String
  relevanceCall : Chunk → List Char → Except EngineError RelevanceJson

/-- Split on runs of whitespace (JS `question.split(/\s+/)`). -/
def splitWsAux : Nat → List Char → List Char → List (List Char)
  | _, [], acc => [acc.reverse]
  | 0, l, acc => [acc.reverse ++ l]
  | Nat.succ n, c :: rest, acc =>
    if isJsWhitespace c then
      acc.reverse :: splitWsAux n (rest.dropWhile isJsWhitespace) []
    else splitWsAux n rest (c :: acc)

/-- JS `s.split(/\s+/)`. -/
def splitWs (l : List Char) : List (List Char) := splitWsAux l.length l []

/-- JS `hay.includes(needle)` for strings. -/
def listContains (needle : List Char) : List Char → Bool
  | [] => needle.isEmpty
  | c :: t => needle.isPrefixOf (c :: t) || listContains needle t

/-- Embedding of `keywordMatchScore` from `qa.js`: words of the question
longer than 3 characters are matched against the lowercased text; the score
is `min 10 (2 * matches)`. -/
def keywordMatchScore (question text : List Char) : Int × String :=
  let keywords := (splitWs (lowercase question)).filter fun w => 3 < w.length
  let matchCount := (keywords.filter fun kw => listContains kw (lowercase text)).length
  (min 10 ((matchCount : Int) * 2), "Keyword matching fallback")

/-- Embedding of `assessChunkRelevance`: the structured relevance call with
the local keyword fallback on failure. -/
def assessChunkRelevance (engine : QAEngine) (chunk : Chunk) (question : List Char) :
    Int × String :=
  match engine.relevanceCall chunk question with
  | .ok r => (r.score.getD 0, r.reasoning.getD "")
  | .error _ => keywordMatchScore question chunk.text

/-- Embedding of `findRelevantChunks`: score all chunks, stable-sort by score
descending (JS comparator `b.score - a.score`), take the top 3 with positive
score. -/
def findRelevantChunks (engine : QAEngine) (chunks : List Chunk) (question : List Char) :
    List Chunk :=
  let chunkRelevance := chunks.map fun c => (c, assessChunkRelevance engine c question)
  let sorted := chunkRelevance.mergeSort fun a b => b.2.1 ≤ a.2.1
  ((sorted.take 3).filter fun cr => 0 < cr.2.1).map fun cr => cr.1

/-- Embedding of `answerFromChunk`: a single free-form completion over the
given text and question. -/
def answerFromChunk (engine : QAEngine) (text question : List Char) :
    Except EngineError String :=
  engine.promptAPI text question

/-- The fixed response when no chunk scores above zero. -/
def notFoundAnswer : String :=
  "I couldn't find relevant information in the document to answer this question."

/-- JS `[Part ${index + 1}]` label prefixed to each relevant chunk. -/
def partLabel (index : Nat) : List Char := ("[Part " ++ toString (index + 1) ++ "]\n").toList

/-- Embedding of `answerFromMultipleChunks`: combine the relevant chunks
(labelled by position, separated by `\n\n---\n\n`) and answer once. -/
def answerFromMultipleChunks (engine : QAEngine) (chunks : List Chunk)
    (question : List Char) : Except EngineError String :=
  let relevantChunks := findRelevantChunks engine chunks question
  if relevantChunks.isEmpty then .ok notFoundAnswer
  else
    let combinedContext :=
      joinSep ("\n\n---\n\n".toList) (relevantChunks.map fun rc => partLabel rc.index ++ rc.text)
    answerFromChunk engine combinedContext question

/-- Errors surfaced by `answerQuestion`: the empty-question guard and the
content-validation error (thrown before the `try`), and wrapped
"Q&A failed: ..." errors from inside it. -/
inductive QAError where
  | emptyQuestion
  | invalidContent (e : Option ValidationError)
  | qaFailed (message : String)
deriving DecidableEq

/-- The JS error messages of `answerQuestion`. -/
def QAError.message : QAError → String
  | .emptyQuestion => "Please provide a question"
  | .invalidContent e => (e.map ValidationError.message).getD ""
  | .qaFailed m => "Q&A failed: " ++ m

/-- Embedding of `answerQuestion` from `qa.js`.  The empty-question guard
runs first, content validation second, then chunking; a singleton chunk list
(`chunks.length === 1`, i.e. `[c]`) is answered directly from `chunks[0]`,
otherwise the multi-chunk path runs.  Failures inside the `try` are wrapped
with the `Q&A failed:` prefix. -/
def answerQuestion (engine : QAEngine) (content question : List Char) :
    Except QAError String :=
  if question.isEmpty ∨ (jsTrim question).length = 0 then
    .error .emptyQuestion
  else if (validateContentLength content).valid = false then
    .error (.invalidContent (validateContentLength content).error)
  else
    match chunkContent content with
    | .error e => .error (.qaFailed e.message)
    | .ok chunks =>
      match chunks with
      | [onlyChunk] =>
        (answerFromChunk engine onlyChunk.text question).mapError
          (fun e => .qaFailed e.message)
      | _ =>
        (answerFromMultipleChunks engine chunks question).mapError
          (fun e => .qaFailed e.message)

/-- C9: for every engine and every document — including documents that
content validation would reject — a question that is empty or whitespace-only
makes `answerQuestion` fail with the fixed invalid-input error before content
validation, chunking, or any model call can run (the result does not depend
on the engine or the document). -/
theorem C9_empty_question (engine : QAEngine) (content question : List Char)
    (h : (jsTrim question).length = 0) :
    answerQuestion engine content question = Except.error QAError.emptyQuestion ∧
    QAError.emptyQuestion.message = "Please provide a question" := by
  refine ⟨?_, rfl⟩
  unfold answerQuestion
  rw [if_pos (Or.inr h)]

/-- A concrete engine for the witness. -/
def trivialQAEngine : QAEngine :=
  { promptAPI := fun _ _ => .ok "",
    relevanceCall := fun _ _ => .error { message := "" } }

/-- Witness for C9 at a whitespace-only question and an oversize document
(content validation would reject it, showing the guard runs first). -/
theorem C9_empty_question_witness :
    answerQuestion trivialQAEngine oversizeDoc [' ', ' '] = Except.error QAError.emptyQuestion ∧
    QAError.emptyQuestion.message = "Please provide a question" :=
  C9_empty_question trivialQAEngine oversizeDoc [' ', ' '] (by decide)

end Agreezy
